import Mathlib

/-!
Verification of the gat interval/sampling core against its specification.

The repository ships only `Experiment.py` and the test suite; the core
`gat` module (SegmentList, HistogramSampler, SamplerAnnotator,
getTwoSidedPValue) is exercised by the tests but its code is not in the
tree.  Those components are therefore modelled here from the
specification text, as flagged on each definition.  `Counter`, `Memoize`
and `run` are translated directly from `src/gat/Experiment.py`.

Segments are half-open integer intervals `[start, end)` represented as
`Nat × Nat`.
-/

/-- Modelled from the spec: a Segment is an ordered pair `(start, end)`
of non-negative integers, half-open `[start, end)`.  The `gat` module
that defines it is absent from the tree. -/
abbrev Seg : Type := Nat × Nat

/-- Modelled from the spec: `sum` is `Σ (end − start)` over segments
(nucleotide mass). -/
def sumL (l : List Seg) : Nat :=
  (l.map (fun p => p.2 - p.1)).sum

/-- Set of integer positions covered by a list of segments: the
set-theoretic union of the half-open intervals. -/
def segsSet (l : List Seg) : Finset Nat :=
  l.foldr (fun p acc => Finset.Ico p.1 p.2 ∪ acc) ∅

/-- Separation relation between segments: the first ends strictly before
the second starts (disjoint and non-adjacent). -/
def segSep (p q : Seg) : Prop := p.2 < q.1

/-- Comparison on segments by `start`, the sort key used by
`normalize`. -/
def segLE (p q : Seg) : Prop := p.1 ≤ q.1

instance : DecidableRel segLE := fun p q => Nat.decLe p.1 q.1

instance : IsTotal Seg segLE := ⟨fun p q => Nat.le_total p.1 q.1⟩

instance : IsTrans Seg segLE := ⟨fun _ _ _ h h' => Nat.le_trans h h'⟩

/-- Modelled from the spec: invariants of a normalized SegmentList —
consecutive segments satisfy `end < start` (sorted, pairwise disjoint
and non-adjacent) and no segment is empty. -/
def NormalizedL (l : List Seg) : Prop :=
  List.Pairwise segSep l ∧ ∀ p ∈ l, p.1 < p.2

instance : DecidableRel segSep := fun p q => Nat.decLt p.2 q.1

instance : DecidablePred NormalizedL := fun l =>
  inferInstanceAs (Decidable (List.Pairwise segSep l ∧ ∀ p ∈ l, p.1 < p.2))

/-- Modelled from the spec: the merging sweep of `normalize()`.  Given
the current merged segment `(s, e)` and the remaining sorted segments,
merge overlapping and adjacent segments and drop empties. -/
def mergeSweep (s e : Nat) : List Seg → List Seg
  | [] => if s < e then [(s, e)] else []
  | (s2, e2) :: rest =>
    if s2 ≤ e then mergeSweep s (max e e2) rest
    else if s < e then (s, e) :: mergeSweep s2 e2 rest
    else mergeSweep s2 e2 rest

/-- Modelled from the spec: `normalize()` sorts by `start`, then sweeps
merging overlapping and adjacent segments, dropping empties. -/
def normalizeL (l : List Seg) : List Seg :=
  match List.insertionSort segLE l with
  | [] => []
  | (s, e) :: rest => mergeSweep s e rest

/-- Modelled from the spec: a SegmentList is an ordered sequence of
segments together with a boolean `isNormalized`. -/
structure SegmentList where
  segs : List Seg
  isNormalized : Bool

/-- Modelled from the spec: a SegmentList is created empty; an empty
SegmentList is normalized. -/
def SegmentList.empty : SegmentList := ⟨[], true⟩

/-- Modelled from the spec: `add(start, end)` appends to the tail;
`isNormalized` becomes false unless the new segment is strictly after
the previous tail and non-empty. -/
def SegmentList.add (sl : SegmentList) (s e : Nat) : SegmentList :=
  ⟨sl.segs ++ [(s, e)],
   sl.isNormalized &&
     (match sl.segs.getLast? with
      | none => decide (s < e)
      | some p => decide (p.2 < s ∧ s < e))⟩

/-- Modelled from the spec: `normalize()` on a SegmentList; afterwards
`isNormalized` is true. -/
def SegmentList.normalize (sl : SegmentList) : SegmentList :=
  ⟨normalizeL sl.segs, true⟩

/-- Modelled from the spec: `sum()` is `Σ (end − start)`. -/
def SegmentList.sum (sl : SegmentList) : Nat := sumL sl.segs

/-- A sequence of `add(start, end)` calls starting from the empty
SegmentList. -/
def buildFromAdds (ps : List Seg) : SegmentList :=
  ps.foldl (fun sl p => sl.add p.1 p.2) SegmentList.empty

theorem mem_segsSet {l : List Seg} {x : Nat} :
    x ∈ segsSet l ↔ ∃ p ∈ l, p.1 ≤ x ∧ x < p.2 := by
  induction l with
  | nil => simp [segsSet]
  | cons q rest ih =>
    simp only [segsSet, List.foldr_cons, Finset.mem_union, Finset.mem_Ico]
    constructor
    · rintro (h | h)
      · exact ⟨q, List.mem_cons_self _ _, h⟩
      · obtain ⟨p, hp, hx⟩ := ih.mp h
        exact ⟨p, List.mem_cons_of_mem _ hp, hx⟩
    · rintro ⟨p, hp, hx⟩
      rcases List.mem_cons.mp hp with rfl | hp
      · exact Or.inl hx
      · exact Or.inr (ih.mpr ⟨p, hp, hx⟩)

theorem segsSet_cons (q : Seg) (l : List Seg) :
    segsSet (q :: l) = Finset.Ico q.1 q.2 ∪ segsSet l := rfl

theorem segsSet_perm {l l' : List Seg} (h : l.Perm l') :
    segsSet l = segsSet l' := by
  apply Finset.ext
  intro x
  rw [mem_segsSet, mem_segsSet]
  constructor
  · rintro ⟨p, hp, hx⟩
    exact ⟨p, h.mem_iff.mp hp, hx⟩
  · rintro ⟨p, hp, hx⟩
    exact ⟨p, h.mem_iff.mpr hp, hx⟩

theorem Ico_merge_eq (s s2 e e2 : Nat) (hss : s ≤ s2) (hs2e : s2 ≤ e) :
    Finset.Ico s (max e e2) = Finset.Ico s e ∪ Finset.Ico s2 e2 := by
  rcases Nat.le_total e2 e with h | h
  · rw [Nat.max_eq_left h]
    ext x
    simp only [Finset.mem_Ico, Finset.mem_union]
    omega
  · rw [Nat.max_eq_right h]
    ext x
    simp only [Finset.mem_Ico, Finset.mem_union]
    omega

theorem mergeSweep_spec (rest : List Seg) :
    ∀ s e : Nat, (∀ p ∈ rest, s ≤ p.1) → List.Sorted segLE rest →
    List.Chain' segSep (mergeSweep s e rest) ∧
    (∀ p ∈ mergeSweep s e rest, p.1 < p.2) ∧
    segsSet (mergeSweep s e rest) = Finset.Ico s e ∪ segsSet rest ∧
    (∀ p ∈ mergeSweep s e rest, s ≤ p.1) := by
  induction rest with
  | nil =>
    intro s e _ _
    by_cases h : s < e
    · simp only [mergeSweep, if_pos h]
      refine ⟨List.chain'_singleton _, ?_, ?_, ?_⟩
      · intro p hp
        rcases List.mem_singleton.mp hp with rfl
        exact h
      · simp [segsSet]
      · intro p hp
        rcases List.mem_singleton.mp hp with rfl
        exact Nat.le_refl _
    · simp only [mergeSweep, if_neg h]
      refine ⟨List.chain'_nil, by simp, ?_, by simp⟩
      rw [Finset.Ico_eq_empty h]
      simp [segsSet]
  | cons q rest' ih =>
    intro s e hs hsort
    obtain ⟨s2, e2⟩ := q
    rw [List.sorted_cons] at hsort
    obtain ⟨hhead, hsort'⟩ := hsort
    have hss2 : s ≤ s2 := hs _ (List.mem_cons_self _ _)
    by_cases h1 : s2 ≤ e
    · simp only [mergeSweep, if_pos h1]
      obtain ⟨c1, c2, c3, c4⟩ :=
        ih s (max e e2) (fun p hp => hs p (List.mem_cons_of_mem _ hp)) hsort'
      refine ⟨c1, c2, ?_, c4⟩
      rw [c3, segsSet_cons, Ico_merge_eq s s2 e e2 hss2 h1, Finset.union_assoc]
    · obtain ⟨c1, c2, c3, c4⟩ := ih s2 e2 (fun p hp => hhead p hp) hsort'
      by_cases h2 : s < e
      · simp only [mergeSweep, if_neg h1, if_pos h2]
        refine ⟨?_, ?_, ?_, ?_⟩
        · rw [List.chain'_cons']
          refine ⟨?_, c1⟩
          intro b hb
          have hbm : b ∈ mergeSweep s2 e2 rest' := List.mem_of_mem_head? hb
          have : s2 ≤ b.1 := c4 b hbm
          exact Nat.lt_of_not_le h1 |>.trans_le this
        · intro p hp
          rcases List.mem_cons.mp hp with rfl | hp
          · exact h2
          · exact c2 p hp
        · show Finset.Ico s e ∪ segsSet (mergeSweep s2 e2 rest') =
            Finset.Ico s e ∪ (Finset.Ico s2 e2 ∪ segsSet rest')
          rw [c3]
        · intro p hp
          rcases List.mem_cons.mp hp with rfl | hp
          · exact Nat.le_refl _
          · exact hss2.trans (c4 p hp)
      · simp only [mergeSweep, if_neg h1, if_neg h2]
        refine ⟨c1, c2, ?_, fun p hp => hss2.trans (c4 p hp)⟩
        rw [c3, segsSet_cons, Finset.Ico_eq_empty h2, Finset.empty_union]

theorem sep_all {s e : Nat} {rest : List Seg}
    (hch : List.Chain' segSep ((s, e) :: rest))
    (hne : ∀ p ∈ rest, p.1 ≤ p.2) :
    ∀ p ∈ rest, e < p.1 := by
  induction rest generalizing s e with
  | nil => intro p hp; cases hp
  | cons q rest' ih =>
    obtain ⟨s2, e2⟩ := q
    rw [List.chain'_cons] at hch
    obtain ⟨h12, hch'⟩ := hch
    intro p hp
    rcases List.mem_cons.mp hp with rfl | hp
    · exact h12
    · have h2 : e2 < p.1 :=
        ih hch' (fun r hr => hne r (List.mem_cons_of_mem _ hr)) p hp
      have hs2e2 : s2 ≤ e2 := hne (s2, e2) (List.mem_cons_self _ _)
      calc e < s2 := h12
        _ ≤ e2 := hs2e2
        _ < p.1 := h2

theorem pairwise_sep {l : List Seg} (hch : List.Chain' segSep l)
    (hne : ∀ p ∈ l, p.1 ≤ p.2) : List.Pairwise segSep l := by
  induction l with
  | nil => exact List.Pairwise.nil
  | cons q rest ih =>
    obtain ⟨s, e⟩ := q
    refine List.Pairwise.cons ?_ (ih hch.tail (fun p hp => hne p (List.mem_cons_of_mem _ hp)))
    exact sep_all hch (fun p hp => hne p (List.mem_cons_of_mem _ hp))

theorem sum_eq_card {l : List Seg} (hch : List.Chain' segSep l)
    (hne : ∀ p ∈ l, p.1 ≤ p.2) : sumL l = (segsSet l).card := by
  induction l with
  | nil => simp [sumL, segsSet]
  | cons q rest ih =>
    obtain ⟨s, e⟩ := q
    have hsep : ∀ p ∈ rest, e < p.1 :=
      sep_all hch (fun p hp => hne p (List.mem_cons_of_mem _ hp))
    have hdisj : Disjoint (Finset.Ico s e) (segsSet rest) := by
      rw [Finset.disjoint_left]
      intro x hx hx'
      obtain ⟨p, hp, hp1, hp2⟩ := mem_segsSet.mp hx'
      have hxe : x < e := (Finset.mem_Ico.mp hx).2
      have := hsep p hp
      omega
    rw [segsSet_cons, Finset.card_union_of_disjoint hdisj, Nat.card_Ico]
    have : sumL ((s, e) :: rest) = (e - s) + sumL rest := by
      simp [sumL]
    rw [this, ih hch.tail (fun p hp => hne p (List.mem_cons_of_mem _ hp))]

theorem normalizeL_spec (l : List Seg) :
    NormalizedL (normalizeL l) ∧ segsSet (normalizeL l) = segsSet l ∧
    sumL (normalizeL l) = (segsSet l).card := by
  have hperm : (List.insertionSort segLE l).Perm l := List.perm_insertionSort segLE l
  have hsorted : List.Sorted segLE (List.insertionSort segLE l) :=
    List.sorted_insertionSort segLE l
  have hset : segsSet (List.insertionSort segLE l) = segsSet l := segsSet_perm hperm
  rcases hh : List.insertionSort segLE l with _ | ⟨⟨s, e⟩, rest⟩
  · have : normalizeL l = [] := by
      unfold normalizeL
      rw [hh]
    rw [this]
    rw [hh] at hset
    refine ⟨⟨List.Pairwise.nil, by simp⟩, ?_, ?_⟩
    · rw [← hset]
    · rw [← hset]
      simp [sumL, segsSet]
  · have hnl : normalizeL l = mergeSweep s e rest := by
      unfold normalizeL
      rw [hh]
    rw [hh] at hsorted hset
    rw [List.sorted_cons] at hsorted
    obtain ⟨hhead, hsort'⟩ := hsorted
    obtain ⟨c1, c2, c3, _⟩ := mergeSweep_spec rest s e (fun p hp => hhead p hp) hsort'
    rw [hnl]
    have hset2 : segsSet (mergeSweep s e rest) = segsSet l := by
      rw [c3, show Finset.Ico s e ∪ segsSet rest = segsSet (((s, e) : Seg) :: rest) from rfl,
        hset]
    refine ⟨⟨pairwise_sep c1 (fun p hp => Nat.le_of_lt (c2 p hp)), c2⟩, hset2, ?_⟩
    rw [sum_eq_card c1 (fun p hp => Nat.le_of_lt (c2 p hp)), hset2]

theorem buildFromAdds_segs (ps : List Seg) : (buildFromAdds ps).segs = ps := by
  suffices h : ∀ (ps : List Seg) (sl : SegmentList),
      (ps.foldl (fun sl p => sl.add p.1 p.2) sl).segs = sl.segs ++ ps by
    rw [buildFromAdds, h]
    rfl
  intro ps
  induction ps with
  | nil => intro sl; simp
  | cons p ps' ih =>
    intro sl
    rw [List.foldl_cons, ih]
    simp [SegmentList.add]

/-- C2: for any finite sequence of `add(start, end)` calls (any order,
overlaps, adjacencies, duplicates, empty segments allowed) followed by
`normalize()`, the result is sorted by start ascending, pairwise
disjoint and non-adjacent (consecutive `(a,b), (c,d)` satisfy `b < c`),
contains no empty segments, has `isNormalized` true, and its sum equals
the nucleotide count of the set-theoretic union of the inputs. -/
theorem segmentList_normalize_correct (ps : List Seg) (h : ∀ p ∈ ps, p.1 ≤ p.2) :
    List.Pairwise segLE ((buildFromAdds ps).normalize).segs ∧
    List.Pairwise segSep ((buildFromAdds ps).normalize).segs ∧
    (∀ p ∈ ((buildFromAdds ps).normalize).segs, p.1 < p.2) ∧
    ((buildFromAdds ps).normalize).isNormalized = true ∧
    ((buildFromAdds ps).normalize).sum = (segsSet ps).card := by
  have hsegs : ((buildFromAdds ps).normalize).segs = normalizeL ps := by
    rw [SegmentList.normalize, buildFromAdds_segs]
  obtain ⟨⟨hps, hne⟩, _, hsum⟩ := normalizeL_spec ps
  refine ⟨?_, ?_, ?_, rfl, ?_⟩
  · rw [hsegs]
    refine hps.imp_of_mem ?_
    intro p q hp hq hpq
    have := hne p hp
    exact Nat.le_of_lt (Nat.lt_of_lt_of_le this (Nat.le_of_lt hpq))
  · rw [hsegs]; exact hps
  · rw [hsegs]; exact hne
  · rw [SegmentList.sum, hsegs, hsum]

/-- Witness for C2 at a concrete sequence of adds. -/
theorem segmentList_normalize_correct_witness :
    (∀ p ∈ ([(20, 30), (0, 10), (5, 25), (7, 7)] : List Seg), p.1 ≤ p.2) ∧
    (List.Pairwise segLE ((buildFromAdds [(20, 30), (0, 10), (5, 25), (7, 7)]).normalize).segs ∧
     List.Pairwise segSep ((buildFromAdds [(20, 30), (0, 10), (5, 25), (7, 7)]).normalize).segs ∧
     (∀ p ∈ ((buildFromAdds [(20, 30), (0, 10), (5, 25), (7, 7)]).normalize).segs, p.1 < p.2) ∧
     ((buildFromAdds [(20, 30), (0, 10), (5, 25), (7, 7)]).normalize).isNormalized = true ∧
     ((buildFromAdds [(20, 30), (0, 10), (5, 25), (7, 7)]).normalize).sum =
       (segsSet [(20, 30), (0, 10), (5, 25), (7, 7)]).card) :=
  ⟨by decide, segmentList_normalize_correct _ (by decide)⟩

/-- Modelled from the spec: `overlapWithRange(a, b)` accumulates
`min(b, end) − max(a, start)` over the segments overlapping `[a, b)`.
The source binary-searches the first segment with `end > a` and stops at
the first `start ≥ b`; on a normalized list the skipped segments
contribute nothing, so the linear accumulation below computes the same
value. -/
def overlapRangeL : List Seg → Nat → Nat → Nat
  | [], _, _ => 0
  | (s, e) :: rest, a, b =>
    (if a < e ∧ s < b then min b e - max a s else 0) + overlapRangeL rest a b

/-- Modelled from the spec: `intersect(other)` as a two-pointer merge on
sorted inputs, emitting the non-empty pairwise intersections and
advancing past the segment that ends first. -/
def intersectLists : List Seg → List Seg → List Seg
  | [], _ => []
  | _ :: _, [] => []
  | (s1, e1) :: r1, (s2, e2) :: r2 =>
    let rest := if e1 ≤ e2 then intersectLists r1 ((s2, e2) :: r2)
                else intersectLists ((s1, e1) :: r1) r2
    if max s1 s2 < min e1 e2 then (max s1 s2, min e1 e2) :: rest else rest
termination_by l1 l2 => l1.length + l2.length

/-- Modelled from the spec: `overlapWithRange` on a SegmentList. -/
def SegmentList.overlapWithRange (sl : SegmentList) (a b : Nat) : Nat :=
  overlapRangeL sl.segs a b

/-- Modelled from the spec: `intersect(other)` returns a new normalized
SegmentList equal to the set intersection. -/
def SegmentList.intersect (sl other : SegmentList) : SegmentList :=
  ⟨intersectLists sl.segs other.segs, true⟩

theorem intersectLists_nil_right (l : List Seg) : intersectLists l [] = [] := by
  cases l with
  | nil => rw [intersectLists]
  | cons q r => rw [intersectLists]

theorem overlapRangeL_eq_card {a : List Seg} (hch : List.Chain' segSep a)
    (hne : ∀ p ∈ a, p.1 ≤ p.2) (lo hi : Nat) :
    overlapRangeL a lo hi = ((segsSet a) ∩ Finset.Ico lo hi).card := by
  induction a with
  | nil => simp [overlapRangeL, segsSet]
  | cons q rest ih =>
    obtain ⟨s, e⟩ := q
    have hsep : ∀ p ∈ rest, e < p.1 :=
      sep_all hch (fun p hp => hne p (List.mem_cons_of_mem _ hp))
    have hdisj : Disjoint (Finset.Ico s e ∩ Finset.Ico lo hi)
        (segsSet rest ∩ Finset.Ico lo hi) := by
      rw [Finset.disjoint_left]
      intro x hx hx'
      obtain ⟨p, hp, hp1, hp2⟩ := mem_segsSet.mp (Finset.mem_inter.mp hx').1
      have hxe : x < e := (Finset.mem_Ico.mp (Finset.mem_inter.mp hx).1).2
      have := hsep p hp
      omega
    have hrw : segsSet ((s, e) :: rest) ∩ Finset.Ico lo hi =
        (Finset.Ico s e ∩ Finset.Ico lo hi) ∪ (segsSet rest ∩ Finset.Ico lo hi) := by
      rw [segsSet_cons, Finset.union_inter_distrib_right]
    rw [hrw, Finset.card_union_of_disjoint hdisj, Finset.Ico_inter_Ico, Nat.card_Ico]
    have hterm : (if lo < e ∧ s < hi then min hi e - max lo s else 0) =
        min e hi - max s lo := by
      split_ifs with h
      · omega
      · omega
    show (if lo < e ∧ s < hi then min hi e - max lo s else 0) + overlapRangeL rest lo hi =
      min e hi - max s lo + (segsSet rest ∩ Finset.Ico lo hi).card
    rw [hterm, ih hch.tail (fun p hp => hne p (List.mem_cons_of_mem _ hp))]

theorem intersectLists_single_spec {lo hi : Nat} :
    ∀ {a : List Seg}, List.Chain' segSep a → (∀ p ∈ a, p.1 ≤ p.2) →
    List.Chain' segSep (intersectLists a [(lo, hi)]) ∧
    (∀ p ∈ intersectLists a [(lo, hi)], p.1 < p.2) ∧
    segsSet (intersectLists a [(lo, hi)]) = segsSet a ∩ Finset.Ico lo hi ∧
    (∀ p ∈ intersectLists a [(lo, hi)], ∃ q ∈ a, q.1 ≤ p.1) := by
  intro a
  induction a with
  | nil =>
    intro _ _
    rw [intersectLists]
    refine ⟨List.chain'_nil, by simp, ?_, by simp⟩
    rw [show segsSet [] = (∅ : Finset Nat) from rfl, Finset.empty_inter]
  | cons q r1 ih =>
    intro hch hne
    obtain ⟨s1, e1⟩ := q
    have hne' : ∀ p ∈ r1, p.1 ≤ p.2 := fun p hp => hne p (List.mem_cons_of_mem _ hp)
    have hsep : ∀ p ∈ r1, e1 < p.1 := sep_all hch hne'
    by_cases h : e1 ≤ hi
    · obtain ⟨d1, d2, d3, d4⟩ := ih hch.tail hne'
      have hrest_lb : ∀ p ∈ intersectLists r1 [(lo, hi)], e1 < p.1 := by
        intro p hp
        obtain ⟨q, hq, hq1⟩ := d4 p hp
        exact (hsep q hq).trans_le hq1
      have hunfold : intersectLists ((s1, e1) :: r1) [(lo, hi)] =
          if max s1 lo < min e1 hi then
            (max s1 lo, min e1 hi) :: intersectLists r1 [(lo, hi)]
          else intersectLists r1 [(lo, hi)] := by
        rw [intersectLists]
        simp only [h, if_true]
      rw [hunfold]
      by_cases g : max s1 lo < min e1 hi
      · rw [if_pos g]
        refine ⟨?_, ?_, ?_, ?_⟩
        · rw [List.chain'_cons']
          refine ⟨?_, d1⟩
          intro b hb
          have hbm := List.mem_of_mem_head? hb
          have := hrest_lb b hbm
          show min e1 hi < b.1
          omega
        · intro p hp
          rcases List.mem_cons.mp hp with rfl | hp
          · exact g
          · exact d2 p hp
        · rw [segsSet_cons, d3, segsSet_cons, Finset.union_inter_distrib_right,
            Finset.Ico_inter_Ico]
        · intro p hp
          rcases List.mem_cons.mp hp with rfl | hp
          · exact ⟨(s1, e1), List.mem_cons_self _ _, Nat.le_max_left _ _⟩
          · obtain ⟨q, hq, hq1⟩ := d4 p hp
            exact ⟨q, List.mem_cons_of_mem _ hq, hq1⟩
      · rw [if_neg g]
        refine ⟨d1, d2, ?_, ?_⟩
        · rw [d3, segsSet_cons, Finset.union_inter_distrib_right, Finset.Ico_inter_Ico,
            Finset.Ico_eq_empty g, Finset.empty_union]
        · intro p hp
          obtain ⟨q, hq, hq1⟩ := d4 p hp
          exact ⟨q, List.mem_cons_of_mem _ hq, hq1⟩
    · have hrSet : segsSet r1 ∩ Finset.Ico lo hi = ∅ := by
        rw [Finset.eq_empty_iff_forall_not_mem]
        intro x hx
        obtain ⟨hx1, hx2⟩ := Finset.mem_inter.mp hx
        obtain ⟨q, hq, hq1, hq2⟩ := mem_segsSet.mp hx1
        have := hsep q hq
        have := (Finset.mem_Ico.mp hx2).2
        omega
      have hunfold : intersectLists ((s1, e1) :: r1) [(lo, hi)] =
          if max s1 lo < min e1 hi then [(max s1 lo, min e1 hi)] else [] := by
        rw [intersectLists]
        simp only [h, if_false, intersectLists_nil_right]
      rw [hunfold]
      have htarget : segsSet ((s1, e1) :: r1) ∩ Finset.Ico lo hi =
          Finset.Ico (max s1 lo) (min e1 hi) := by
        rw [segsSet_cons, Finset.union_inter_distrib_right, Finset.Ico_inter_Ico, hrSet,
          Finset.union_empty]
      by_cases g : max s1 lo < min e1 hi
      · rw [if_pos g]
        refine ⟨List.chain'_singleton _, ?_, ?_, ?_⟩
        · intro p hp
          rcases List.mem_singleton.mp hp with rfl
          exact g
        · rw [htarget, segsSet_cons]
          show Finset.Ico (max s1 lo) (min e1 hi) ∪ segsSet [] = _
          rw [show segsSet [] = (∅ : Finset Nat) from rfl, Finset.union_empty]
        · intro p hp
          rcases List.mem_singleton.mp hp with rfl
          exact ⟨(s1, e1), List.mem_cons_self _ _, Nat.le_max_left _ _⟩
      · rw [if_neg g]
        refine ⟨List.chain'_nil, by simp, ?_, by simp⟩
        rw [htarget, Finset.Ico_eq_empty g]
        rfl

theorem overlapRangeL_of_beyond {a : List Seg} {lo : Nat} (hi : Nat)
    (h : ∀ p ∈ a, p.2 ≤ lo) : overlapRangeL a lo hi = 0 := by
  induction a with
  | nil => rfl
  | cons q rest ih =>
    obtain ⟨s, e⟩ := q
    have he : e ≤ lo := h (s, e) (List.mem_cons_self _ _)
    have hcond : ¬ (lo < e ∧ s < hi) := by omega
    show (if lo < e ∧ s < hi then min hi e - max lo s else 0) + overlapRangeL rest lo hi = 0
    rw [if_neg hcond, ih (fun p hp => h p (List.mem_cons_of_mem _ hp))]

/-- C5: for every normalized SegmentList `a` and every range `[lo, hi)`
with `lo ≤ hi`, `a.overlapWithRange(lo, hi)` equals
`a.intersect(SegmentList([(lo, hi)])).sum()`; moreover
`overlapWithRange` on an empty SegmentList returns 0, and on a range
lying beyond all segments of `a` it returns 0. -/
theorem overlapWithRange_eq_intersect_sum (a : SegmentList) (lo hi : Nat)
    (hn : NormalizedL a.segs) (hlohi : lo ≤ hi) :
    a.overlapWithRange lo hi = (a.intersect ⟨[(lo, hi)], true⟩).sum ∧
    SegmentList.overlapWithRange ⟨[], true⟩ lo hi = 0 ∧
    ((∀ p ∈ a.segs, p.2 ≤ lo) → a.overlapWithRange lo hi = 0) := by
  obtain ⟨hpw, hne⟩ := hn
  have hch : List.Chain' segSep a.segs := hpw.chain'
  have hne' : ∀ p ∈ a.segs, p.1 ≤ p.2 := fun p hp => Nat.le_of_lt (hne p hp)
  obtain ⟨d1, d2, d3, _⟩ := @intersectLists_single_spec lo hi a.segs hch hne'
  refine ⟨?_, rfl, fun hb => overlapRangeL_of_beyond hi hb⟩
  show overlapRangeL a.segs lo hi = sumL (intersectLists a.segs [(lo, hi)])
  rw [overlapRangeL_eq_card hch hne', ← d3,
    ← sum_eq_card d1 (fun p hp => Nat.le_of_lt (d2 p hp))]

/-- Witness for C5 at a concrete normalized list and range. -/
theorem overlapWithRange_eq_intersect_sum_witness :
    NormalizedL (SegmentList.mk [(0, 10), (100, 110)] true).segs ∧ (5:Nat) ≤ 105 ∧
    ((SegmentList.mk [(0, 10), (100, 110)] true).overlapWithRange 5 105 =
      ((SegmentList.mk [(0, 10), (100, 110)] true).intersect ⟨[(5, 105)], true⟩).sum ∧
    SegmentList.overlapWithRange ⟨[], true⟩ 5 105 = 0 ∧
    ((∀ p ∈ (SegmentList.mk [(0, 10), (100, 110)] true).segs, p.2 ≤ 5) →
      (SegmentList.mk [(0, 10), (100, 110)] true).overlapWithRange 5 105 = 0)) :=
  ⟨by decide, by decide,
   overlapWithRange_eq_intersect_sum ⟨[(0, 10), (100, 110)], true⟩ 5 105 (by decide) (by decide)⟩

/-- Modelled from the spec: the workspace prefix index of
`SamplerAnnotator` — given an offset into `[0, workspace.sum)`, return
the corresponding workspace coordinate together with the workspace
segment `[a, b)` containing it; `none` when the offset is out of
range. -/
def positionAt : List Seg → Nat → Option (Nat × Nat × Nat)
  | [], _ => none
  | (s, e) :: rest, o =>
    if o < e - s then some (s + o, s, e) else positionAt rest (o - (e - s))

/-- Disjointness of two half-open segments: one ends before the other
starts (adjacency allowed). -/
def segDisjoint (p q : Seg) : Prop := min p.2 q.2 ≤ max p.1 q.1

/-- Modelled from the spec: the placement loop of
`SamplerAnnotator.sample`.  Each element of `draws` supplies the random
draws of one iteration: a length drawn from the HistogramSampler and a
uniform offset into `[0, workspace.sum)`.  A drawn length whose
placement would overrun `M` is capped at `M − placed.sum`; a capped
length of zero stops the loop; a candidate segment is truncated at the
workspace-segment boundary, the remainder being handled by later
iterations with freshly drawn positions; a candidate overlapping an
already-placed segment is rejected and redrawn.  `none` models a run
whose supply of draws is exhausted before placement completes. -/
def sampleLoop (w : List Seg) (M : Nat) : List (Nat × Nat) → List Seg → Option (List Seg)
  | [], placed => if sumL placed = M then some placed else none
  | (len, off) :: rest, placed =>
    if sumL placed = M then some placed
    else
      let l := if sumL placed + len > M then M - sumL placed else len
      if l = 0 then some placed
      else
        match positionAt w off with
        | none => sampleLoop w M rest placed
        | some (p, _, b) =>
          let e := min (p + l) b
          if placed.any (fun q => decide (max q.1 p < min q.2 e)) then
            sampleLoop w M rest placed
          else sampleLoop w M rest ((p, e) :: placed)

/-- Modelled from the spec: `SamplerAnnotator.sample(segments,
workspace)` — clip the segments to the workspace to obtain the target
mass `M`, repeatedly place drawn lengths at drawn positions, then
normalize the placement.  The stream `draws` stands for the RNG. -/
def SamplerAnnotator.sample (s w : SegmentList) (draws : List (Nat × Nat)) :
    Option SegmentList :=
  (sampleLoop w.segs (s.intersect w).sum draws []).map
    (fun placed => SegmentList.normalize ⟨placed, false⟩)

theorem positionAt_spec :
    ∀ (w : List Seg) (o p a b : Nat), positionAt w o = some (p, a, b) →
    (a, b) ∈ w ∧ a ≤ p ∧ p < b := by
  intro w
  induction w with
  | nil => intro o p a b h; cases h
  | cons q rest ih =>
    intro o p a b h
    obtain ⟨s, e⟩ := q
    rw [positionAt] at h
    by_cases hlt : o < e - s
    · rw [if_pos hlt] at h
      simp only [Option.some.injEq, Prod.mk.injEq] at h
      obtain ⟨h1, h2, h3⟩ := h
      subst h1
      subst h2
      subst h3
      exact ⟨List.mem_cons_self _ _, Nat.le_add_right _ _, by omega⟩
    · rw [if_neg hlt] at h
      obtain ⟨hm, hap, hpb⟩ := ih _ p a b h
      exact ⟨List.mem_cons_of_mem _ hm, hap, hpb⟩

theorem card_segsSet_of_disjoint :
    ∀ {l : List Seg}, List.Pairwise segDisjoint l → (segsSet l).card = sumL l := by
  intro l
  induction l with
  | nil => intro _; simp [segsSet, sumL]
  | cons q rest ih =>
    intro hpw
    obtain ⟨hhead, htail⟩ := List.pairwise_cons.mp hpw
    have hdisj : Disjoint (Finset.Ico q.1 q.2) (segsSet rest) := by
      rw [Finset.disjoint_left]
      intro x hx hx'
      obtain ⟨p, hp, hp1, hp2⟩ := mem_segsSet.mp hx'
      obtain ⟨hx1, hx2⟩ := Finset.mem_Ico.mp hx
      have := hhead p hp
      rw [segDisjoint] at this
      omega
    rw [segsSet_cons, Finset.card_union_of_disjoint hdisj, Nat.card_Ico, ih htail]
    rfl

theorem sampleLoop_spec (w : List Seg) (M : Nat) :
    ∀ (draws : List (Nat × Nat)) (placed r : List Seg),
    (∀ d ∈ draws, 0 < d.1) →
    List.Pairwise segDisjoint placed →
    (∀ q ∈ placed, q.1 < q.2) →
    (∀ q ∈ placed, ∃ ab ∈ w, ab.1 ≤ q.1 ∧ q.2 ≤ ab.2) →
    sumL placed ≤ M →
    sampleLoop w M draws placed = some r →
    sumL r = M ∧ List.Pairwise segDisjoint r ∧ (∀ q ∈ r, q.1 < q.2) ∧
    (∀ q ∈ r, ∃ ab ∈ w, ab.1 ≤ q.1 ∧ q.2 ≤ ab.2) := by
  intro draws
  induction draws with
  | nil =>
    intro placed r _ hpw hne hcont hle hr
    rw [sampleLoop] at hr
    by_cases hM : sumL placed = M
    · rw [if_pos hM] at hr
      injection hr with hr
      subst hr
      exact ⟨hM, hpw, hne, hcont⟩
    · rw [if_neg hM] at hr
      cases hr
  | cons d rest ih =>
    intro placed r hd hpw hne hcont hle hr
    obtain ⟨len, off⟩ := d
    have hlen : 0 < len := hd (len, off) (List.mem_cons_self _ _)
    have hd' : ∀ x ∈ rest, 0 < x.1 := fun x hx => hd x (List.mem_cons_of_mem _ hx)
    rw [sampleLoop] at hr
    by_cases hM : sumL placed = M
    · rw [if_pos hM] at hr
      injection hr with hr
      subst hr
      exact ⟨hM, hpw, hne, hcont⟩
    · rw [if_neg hM] at hr
      simp only at hr
      have hlpos : ¬ (if sumL placed + len > M then M - sumL placed else len) = 0 := by
        split_ifs with hcap
        · omega
        · omega
      rw [if_neg hlpos] at hr
      rcases hpos : positionAt w off with _ | ⟨p, a, b⟩
      · rw [hpos] at hr
        exact ih placed r hd' hpw hne hcont hle hr
      · rw [hpos] at hr
        dsimp only at hr
        obtain ⟨habm, hap, hpb⟩ := positionAt_spec w off p a b hpos
        set l := if sumL placed + len > M then M - sumL placed else len with hl
        set e := min (p + l) b with he
        by_cases hrej :
            placed.any (fun q => decide (max q.1 p < min q.2 e)) = true
        · rw [if_pos hrej] at hr
          exact ih placed r hd' hpw hne hcont hle hr
        · rw [if_neg hrej] at hr
          have hnol : ∀ q ∈ placed, ¬ (max q.1 p < min q.2 e) := by
            intro q hq hlt
            exact hrej (List.any_eq_true.mpr ⟨q, hq, by simpa using hlt⟩)
          have hlpos' : 0 < l := Nat.pos_of_ne_zero hlpos
          have hpe : p < e := by
            rw [he]
            omega
          have hlle : l ≤ M - sumL placed := by
            rw [hl]
            split_ifs with hcap
            · exact Nat.le_refl _
            · omega
          have hsum' : sumL ((p, e) :: placed) = (e - p) + sumL placed := rfl
          refine ih ((p, e) :: placed) r hd' ?_ ?_ ?_ ?_ hr
          · refine List.Pairwise.cons ?_ hpw
            intro q hq
            have := hnol q hq
            rw [segDisjoint]
            omega
          · intro q hq
            rcases List.mem_cons.mp hq with rfl | hq
            · exact hpe
            · exact hne q hq
          · intro q hq
            rcases List.mem_cons.mp hq with rfl | hq
            · exact ⟨(a, b), habm, hap, by rw [he]; omega⟩
            · exact hcont q hq
          · rw [hsum']
            have : e - p ≤ l := by
              rw [he]
              omega
            omega

theorem mergeSweep_contained {w : List Seg} (hw : NormalizedL w) :
    ∀ (rest : List Seg) (s e : Nat),
    (∀ p ∈ rest, p.1 < p.2) → (∀ p ∈ rest, s ≤ p.1) → List.Sorted segLE rest →
    s < e → (∃ ab ∈ w, ab.1 ≤ s ∧ e ≤ ab.2) →
    (∀ p ∈ rest, ∃ ab ∈ w, ab.1 ≤ p.1 ∧ p.2 ≤ ab.2) →
    ∀ p ∈ mergeSweep s e rest, ∃ ab ∈ w, ab.1 ≤ p.1 ∧ p.2 ≤ ab.2 := by
  intro rest
  induction rest with
  | nil =>
    intro s e _ _ _ hse hcse _
    simp only [mergeSweep, if_pos hse]
    intro p hp
    rcases List.mem_singleton.mp hp with rfl
    exact hcse
  | cons q rest' ih =>
    intro s e hne hbound hsort hse hcse hcall
    obtain ⟨s2, e2⟩ := q
    rw [List.sorted_cons] at hsort
    obtain ⟨hhead, hsort'⟩ := hsort
    have hs2e2 : s2 < e2 := hne _ (List.mem_cons_self _ _)
    have hss2 : s ≤ s2 := hbound _ (List.mem_cons_self _ _)
    have hc2 : ∃ ab ∈ w, ab.1 ≤ s2 ∧ e2 ≤ ab.2 := hcall _ (List.mem_cons_self _ _)
    by_cases h1 : s2 ≤ e
    · simp only [mergeSweep, if_pos h1]
      obtain ⟨ab1, hab1, ha1, hb1⟩ := hcse
      obtain ⟨ab2, hab2, ha2, hb2⟩ := hc2
      have habeq : ab1 = ab2 := by
        by_contra hne'
        have hsym : Symmetric (fun x y : Seg => segSep x y ∨ segSep y x) :=
          fun x y h => h.symm
        have hforall := (hw.1.imp (fun {x y} h => Or.inl h : ∀ {x y : Seg},
          segSep x y → segSep x y ∨ segSep y x)).forall hsym hab1 hab2 hne'
        obtain ⟨a1, b1⟩ := ab1
        obtain ⟨a2, b2⟩ := ab2
        simp only [segSep] at hforall
        simp only at ha1 hb1 ha2 hb2
        rcases hforall with hsep | hsep
        · omega
        · omega
      subst habeq
      refine ih s (max e e2)
        (fun p hp => hne p (List.mem_cons_of_mem _ hp))
        (fun p hp => hbound p (List.mem_cons_of_mem _ hp))
        hsort'
        (Nat.lt_of_lt_of_le hse (Nat.le_max_left _ _))
        ⟨ab1, hab1, ha1, ?_⟩
        (fun p hp => hcall p (List.mem_cons_of_mem _ hp))
      obtain ⟨a1, b1⟩ := ab1
      simp only at ha1 hb1 ha2 hb2 ⊢
      omega
    · simp only [mergeSweep, if_neg h1, if_pos hse]
      intro p hp
      rcases List.mem_cons.mp hp with rfl | hp
      · exact hcse
      · exact ih s2 e2
          (fun p hp => hne p (List.mem_cons_of_mem _ hp))
          (fun p hp => hhead p hp)
          hsort' hs2e2 hc2
          (fun p hp => hcall p (List.mem_cons_of_mem _ hp)) p hp

theorem normalizeL_contained {w : List Seg} (hw : NormalizedL w) {l : List Seg}
    (hne : ∀ p ∈ l, p.1 < p.2) (hc : ∀ p ∈ l, ∃ ab ∈ w, ab.1 ≤ p.1 ∧ p.2 ≤ ab.2) :
    ∀ p ∈ normalizeL l, ∃ ab ∈ w, ab.1 ≤ p.1 ∧ p.2 ≤ ab.2 := by
  have hmem : ∀ p : Seg, p ∈ List.insertionSort segLE l → p ∈ l :=
    fun p hp => (List.perm_insertionSort segLE l).mem_iff.mp hp
  have hsorted : List.Sorted segLE (List.insertionSort segLE l) :=
    List.sorted_insertionSort segLE l
  rcases hh : List.insertionSort segLE l with _ | ⟨⟨s, e⟩, rest⟩
  · have hnl : normalizeL l = [] := by
      unfold normalizeL
      rw [hh]
    rw [hnl]
    intro p hp
    cases hp
  · have hnl : normalizeL l = mergeSweep s e rest := by
      unfold normalizeL
      rw [hh]
    rw [hnl]
    rw [hh] at hsorted hmem
    rw [List.sorted_cons] at hsorted
    obtain ⟨hhead, hsort'⟩ := hsorted
    exact mergeSweep_contained hw rest s e
      (fun p hp => hne p (hmem p (List.mem_cons_of_mem _ hp)))
      (fun p hp => hhead p hp)
      hsort'
      (hne (s, e) (hmem _ (List.mem_cons_self _ _)))
      (hc (s, e) (hmem _ (List.mem_cons_self _ _)))
      (fun p hp => hc p (hmem p (List.mem_cons_of_mem _ hp)))

/-- C1: for every normalized SegmentList `s` and normalized workspace
`w` with positive total mass, every SegmentList returned by
`SamplerAnnotator.sample(s, w)` has `sum()` exactly equal to
`s.intersect(w).sum()` — exact nucleotide conservation on every single
call.  The stream `draws` stands for the RNG; its lengths are positive,
as the HistogramSampler contract guarantees. -/
theorem samplerAnnotator_conservation (s w : SegmentList) (draws : List (Nat × Nat))
    (r : SegmentList) (hs : NormalizedL s.segs) (hw : NormalizedL w.segs)
    (hmass : 0 < w.sum) (hdraws : ∀ d ∈ draws, 0 < d.1)
    (h : SamplerAnnotator.sample s w draws = some r) :
    r.sum = (s.intersect w).sum := by
  rw [SamplerAnnotator.sample] at h
  obtain ⟨placed, hloop, hmap⟩ := Option.map_eq_some'.mp h
  obtain ⟨c1, c2, _, _⟩ := sampleLoop_spec w.segs ((s.intersect w).sum) draws [] placed
    hdraws List.Pairwise.nil (by simp) (by simp) (by simp [sumL]) hloop
  rw [← hmap]
  show sumL (normalizeL placed) = (s.intersect w).sum
  obtain ⟨_, _, hsum⟩ := normalizeL_spec placed
  rw [hsum, card_segsSet_of_disjoint c2, c1]

/-- C3: for every normalized segments `s` and normalized workspace `w`,
every segment of the SegmentList returned by
`SamplerAnnotator.sample(s, w)` is contained within a single workspace
segment of `w`; no returned segment straddles a gap between workspace
segments or lies outside the workspace. -/
theorem samplerAnnotator_containment (s w : SegmentList) (draws : List (Nat × Nat))
    (r : SegmentList) (hs : NormalizedL s.segs) (hw : NormalizedL w.segs)
    (hdraws : ∀ d ∈ draws, 0 < d.1)
    (h : SamplerAnnotator.sample s w draws = some r) :
    ∀ q ∈ r.segs, ∃ ab ∈ w.segs, ab.1 ≤ q.1 ∧ q.2 ≤ ab.2 := by
  rw [SamplerAnnotator.sample] at h
  obtain ⟨placed, hloop, hmap⟩ := Option.map_eq_some'.mp h
  obtain ⟨_, _, c3, c4⟩ := sampleLoop_spec w.segs ((s.intersect w).sum) draws [] placed
    hdraws List.Pairwise.nil (by simp) (by simp) (by simp [sumL]) hloop
  rw [← hmap]
  show ∀ q ∈ normalizeL placed, ∃ ab ∈ w.segs, ab.1 ≤ q.1 ∧ q.2 ≤ ab.2
  exact normalizeL_contained hw c3 c4

/-- Witness for C1 at a concrete run of the sampler. -/
theorem samplerAnnotator_conservation_witness :
    NormalizedL (SegmentList.mk [(0, 2)] true).segs ∧
    NormalizedL (SegmentList.mk [(0, 10)] true).segs ∧
    0 < (SegmentList.mk [(0, 10)] true).sum ∧
    (∀ d ∈ ([(2, 0)] : List (Nat × Nat)), 0 < d.1) ∧
    SamplerAnnotator.sample ⟨[(0, 2)], true⟩ ⟨[(0, 10)], true⟩ [(2, 0)] =
      some ⟨[(0, 2)], true⟩ ∧
    (SegmentList.mk [(0, 2)] true).sum =
      ((SegmentList.mk [(0, 2)] true).intersect ⟨[(0, 10)], true⟩).sum := by
  have hsample : SamplerAnnotator.sample ⟨[(0, 2)], true⟩ ⟨[(0, 10)], true⟩ [(2, 0)] =
      some ⟨[(0, 2)], true⟩ := by
    simp [SamplerAnnotator.sample, SegmentList.intersect, SegmentList.sum, sumL,
      intersectLists, sampleLoop, positionAt, normalizeL, mergeSweep,
      SegmentList.normalize, List.insertionSort, List.orderedInsert]
  exact ⟨by decide, by decide, by decide, by decide, hsample,
    samplerAnnotator_conservation _ _ _ _ (by decide) (by decide) (by decide)
      (by decide) hsample⟩

/-- Witness for C3 at a concrete run of the sampler. -/
theorem samplerAnnotator_containment_witness :
    NormalizedL (SegmentList.mk [(3, 5)] true).segs ∧
    NormalizedL (SegmentList.mk [(0, 10), (20, 30)] true).segs ∧
    (∀ d ∈ ([(2, 12)] : List (Nat × Nat)), 0 < d.1) ∧
    SamplerAnnotator.sample ⟨[(3, 5)], true⟩ ⟨[(0, 10), (20, 30)], true⟩ [(2, 12)] =
      some ⟨[(22, 24)], true⟩ ∧
    (∀ q ∈ (SegmentList.mk [(22, 24)] true).segs,
      ∃ ab ∈ (SegmentList.mk [(0, 10), (20, 30)] true).segs,
        ab.1 ≤ q.1 ∧ q.2 ≤ ab.2) := by
  have hsample : SamplerAnnotator.sample ⟨[(3, 5)], true⟩
      ⟨[(0, 10), (20, 30)], true⟩ [(2, 12)] = some ⟨[(22, 24)], true⟩ := by
    simp [SamplerAnnotator.sample, SegmentList.intersect, SegmentList.sum, sumL,
      intersectLists, sampleLoop, positionAt, normalizeL, mergeSweep,
      SegmentList.normalize, List.insertionSort, List.orderedInsert]
  exact ⟨by decide, by decide, by decide, hsample,
    samplerAnnotator_containment _ _ _ _ (by decide) (by decide) (by decide) hsample⟩

/-- List indexing with default 0, used by the CDF searches. -/
def nthD : List Nat → Nat → Nat
  | [], _ => 0
  | c :: _, 0 => c
  | _ :: rest, n + 1 => nthD rest n

/-- Modelled from the spec: the cumulative distribution over histogram
buckets used by both HistogramSampler variants. -/
def cdfOf : List Nat → List Nat
  | [] => []
  | c :: rest => c :: (cdfOf rest).map (fun x => c + x)

/-- Modelled from the spec: the linear search of HistogramSamplerSlow —
the first bucket index whose cumulative count exceeds the uniform
draw. -/
def linSearchIdx : List Nat → Nat → Nat
  | [], _ => 0
  | c :: rest, u => if u < c then 0 else linSearchIdx rest u + 1

/-- Modelled from the spec: the binary search of HistogramSampler over
the CDF — the first index in `[lo, hi)` whose entry exceeds `u`. -/
def binSearchAux (cdf : List Nat) (u : Nat) : Nat → Nat → Nat
  | lo, hi =>
    if _h : lo < hi then
      if u < nthD cdf ((lo + hi) / 2) then binSearchAux cdf u lo ((lo + hi) / 2)
      else binSearchAux cdf u ((lo + hi) / 2 + 1) hi
    else lo
termination_by lo hi => hi - lo
decreasing_by
  · omega
  · omega

/-- Modelled from the spec: binary CDF search over the whole table. -/
def binSearchIdx (cdf : List Nat) (u : Nat) : Nat := binSearchAux cdf u 0 cdf.length

/-- Modelled from the spec: the bucket counts of a LengthHistogram —
bucket `i` collects the counts of all lengths with
`floor(length / bucket_size) = i`, for `i < nbuckets`. -/
def bucketCounts (hist : List (Nat × Nat)) (b nbuckets : Nat) : List Nat :=
  (List.range nbuckets).map
    (fun i => ((hist.filter (fun p => decide (p.1 / b = i))).map Prod.snd).sum)

/-- Modelled from the spec: `HistogramSampler.sample` — uniform draw `u`
in `[0, total)`, binary-search the CDF, return
`(bucket_index + 1) · bucket_size`, jittered down by `j ∈ [0,
bucket_size)` within the bucket when `bucket_size > 1`. -/
def HistogramSampler.sample (counts : List Nat) (b u j : Nat) : Nat :=
  (binSearchIdx (cdfOf counts) u + 1) * b - j

/-- Modelled from the spec: the slow variant, identical except that the
CDF is searched linearly. -/
def HistogramSamplerSlow.sample (counts : List Nat) (b u j : Nat) : Nat :=
  (linSearchIdx (cdfOf counts) u + 1) * b - j

theorem nthD_map_add :
    ∀ (l : List Nat) (c k : Nat), k < l.length →
    nthD (l.map (fun x => c + x)) k = c + nthD l k := by
  intro l
  induction l with
  | nil => intro c k h; cases h
  | cons x rest ih =>
    intro c k h
    cases k with
    | zero => rfl
    | succ k' =>
      show nthD (rest.map (fun x => c + x)) k' = c + nthD rest k'
      exact ih c k' (by simpa using h)

theorem cdfOf_length : ∀ l : List Nat, (cdfOf l).length = l.length := by
  intro l
  induction l with
  | nil => rfl
  | cons c rest ih =>
    show ((cdfOf rest).map (fun x => c + x)).length + 1 = rest.length + 1
    rw [List.length_map, ih]

theorem cdfOf_nthD :
    ∀ (l : List Nat) (k : Nat), k < l.length →
    nthD (cdfOf l) k = (l.take (k + 1)).sum := by
  intro l
  induction l with
  | nil => intro k h; cases h
  | cons c rest ih =>
    intro k h
    cases k with
    | zero => simp [cdfOf, nthD]
    | succ k' =>
      have hk : k' < rest.length := by simpa using h
      show nthD ((cdfOf rest).map (fun x => c + x)) k' = (c :: rest.take (k' + 1)).sum
      rw [nthD_map_add _ c k' (by rw [cdfOf_length]; exact hk), ih k' hk]
      simp

theorem cdfOf_mono (l : List Nat) {i j : Nat} (hij : i ≤ j) (hj : j < l.length) :
    nthD (cdfOf l) i ≤ nthD (cdfOf l) j := by
  rw [cdfOf_nthD l i (Nat.lt_of_le_of_lt hij hj), cdfOf_nthD l j hj]
  have : l.take (j + 1) = l.take (i + 1) ++ ((l.drop (i + 1)).take (j - i)) := by
    rw [← List.take_add]
    congr 1
    omega
  rw [this, List.sum_append]
  exact Nat.le_add_right _ _

theorem linSearchIdx_spec (cdf : List Nat) (u : Nat) :
    (∀ k < linSearchIdx cdf u, nthD cdf k ≤ u) ∧
    (linSearchIdx cdf u < cdf.length → u < nthD cdf (linSearchIdx cdf u)) ∧
    linSearchIdx cdf u ≤ cdf.length := by
  induction cdf with
  | nil =>
    have h0 : linSearchIdx [] u = 0 := rfl
    rw [h0]
    refine ⟨?_, ?_, Nat.zero_le _⟩
    · intro k hk
      omega
    · intro hlen
      simp at hlen
  | cons c rest ih =>
    have heq : linSearchIdx (c :: rest) u = if u < c then 0 else linSearchIdx rest u + 1 :=
      rfl
    by_cases h : u < c
    · rw [heq, if_pos h]
      refine ⟨?_, fun _ => h, Nat.zero_le _⟩
      intro k hk
      omega
    · obtain ⟨ih1, ih2, ih3⟩ := ih
      rw [heq, if_neg h]
      refine ⟨?_, ?_, ?_⟩
      · intro k hk
        cases k with
        | zero => exact Nat.le_of_not_lt h
        | succ k' => exact ih1 k' (by omega)
      · intro hlen
        exact ih2 (by simpa using hlen)
      · simpa using ih3

theorem binSearchAux_spec (cdf : List Nat) (u : Nat)
    (hmono : ∀ {i j : Nat}, i ≤ j → j < cdf.length → nthD cdf i ≤ nthD cdf j) :
    ∀ (n lo hi : Nat), hi - lo ≤ n → lo ≤ hi → hi ≤ cdf.length →
    (∀ k < lo, nthD cdf k ≤ u) →
    (∀ k, hi ≤ k → k < cdf.length → u < nthD cdf k) →
    (∀ k < binSearchAux cdf u lo hi, nthD cdf k ≤ u) ∧
    (∀ k, binSearchAux cdf u lo hi ≤ k → k < cdf.length → u < nthD cdf k) ∧
    binSearchAux cdf u lo hi ≤ cdf.length := by
  intro n
  induction n with
  | zero =>
    intro lo hi hn hle hhi inv1 inv2
    have hlohi : ¬ lo < hi := by omega
    rw [binSearchAux, dif_neg hlohi]
    refine ⟨inv1, ?_, by omega⟩
    intro k hk hklen
    exact inv2 k (by omega) hklen
  | succ n ih =>
    intro lo hi hn hle hhi inv1 inv2
    by_cases hlt : lo < hi
    · rw [binSearchAux, dif_pos hlt]
      have hmidlt : (lo + hi) / 2 < hi := by omega
      have hmidge : lo ≤ (lo + hi) / 2 := by omega
      by_cases hu : u < nthD cdf ((lo + hi) / 2)
      · rw [if_pos hu]
        refine ih lo ((lo + hi) / 2) (by omega) hmidge
          (Nat.le_trans (Nat.le_of_lt hmidlt) hhi) inv1 ?_
        intro k hk hklen
        exact Nat.lt_of_lt_of_le hu (hmono hk hklen)
      · rw [if_neg hu]
        refine ih ((lo + hi) / 2 + 1) hi (by omega) (by omega) hhi ?_ inv2
        intro k hk
        have hkm : nthD cdf k ≤ nthD cdf ((lo + hi) / 2) :=
          hmono (by omega) (Nat.lt_of_lt_of_le hmidlt hhi)
        omega
    · rw [binSearchAux, dif_neg hlt]
      refine ⟨inv1, ?_, by omega⟩
      intro k hk hklen
      exact inv2 k (by omega) hklen

theorem firstIdx_unique {cdf : List Nat} {u r1 r2 : Nat}
    (h1a : ∀ k < r1, nthD cdf k ≤ u) (h1b : r1 < cdf.length → u < nthD cdf r1)
    (h1c : r1 ≤ cdf.length)
    (h2a : ∀ k < r2, nthD cdf k ≤ u) (h2b : r2 < cdf.length → u < nthD cdf r2)
    (h2c : r2 ≤ cdf.length) : r1 = r2 := by
  rcases Nat.lt_trichotomy r1 r2 with h | h | h
  · have hr1len : r1 < cdf.length := Nat.lt_of_lt_of_le h h2c
    have := h1b hr1len
    have := h2a r1 h
    omega
  · exact h
  · have hr2len : r2 < cdf.length := Nat.lt_of_lt_of_le h h1c
    have := h2b hr2len
    have := h1a r2 h
    omega

theorem binSearchIdx_eq_linSearchIdx (counts : List Nat) (u : Nat) :
    binSearchIdx (cdfOf counts) u = linSearchIdx (cdfOf counts) u := by
  obtain ⟨b1, b2, b3⟩ := binSearchAux_spec (cdfOf counts) u
    (fun hij hj => cdfOf_mono counts hij (by rwa [cdfOf_length] at hj))
    ((cdfOf counts).length) 0 ((cdfOf counts).length)
    (by omega) (Nat.zero_le _) (Nat.le_refl _)
    (fun k hk => absurd hk (Nat.not_lt_zero k))
    (fun k hk hklen => absurd (Nat.lt_of_le_of_lt hk hklen) (lt_irrefl _))
  obtain ⟨l1, l2, l3⟩ := linSearchIdx_spec (cdfOf counts) u
  exact firstIdx_unique b1 (fun h => b2 _ (Nat.le_refl _) h) b3 l1 l2 l3

theorem histogramSampler_sample_eq_slow (counts : List Nat) (b u j : Nat) :
    HistogramSampler.sample counts b u j = HistogramSamplerSlow.sample counts b u j := by
  rw [HistogramSampler.sample, HistogramSamplerSlow.sample, binSearchIdx_eq_linSearchIdx]

/-- C7: the fast histogram sampler (HistogramSampler, binary CDF
search) and the slow variant (HistogramSamplerSlow, linear search),
constructed from the same histogram and bucket_size, draw lengths from
the same distribution: consuming the same uniform draws `u ∈ [0,
total)` and jitter draws `j ∈ [0, bucket_size)`, the number of RNG
outcomes mapped to any given length value is the same for both
variants (the two sampling functions agree pointwise on every RNG
outcome). -/
theorem histogramSampler_fast_slow_same_distribution (hist : List (Nat × Nat))
    (b nb v : Nat) :
    ((Finset.range (bucketCounts hist b nb).sum ×ˢ Finset.range b).filter
      (fun p => HistogramSampler.sample (bucketCounts hist b nb) b p.1 p.2 = v)).card =
    ((Finset.range (bucketCounts hist b nb).sum ×ˢ Finset.range b).filter
      (fun p => HistogramSamplerSlow.sample (bucketCounts hist b nb) b p.1 p.2 = v)).card := by
  congr 1
  apply Finset.filter_congr
  intro p _
  rw [histogramSampler_sample_eq_slow]

theorem bucketCounts_single (L c nb : Nat) :
    bucketCounts [(L, c)] 1 nb =
      (List.range nb).map (fun i => if i = L then c else 0) := by
  rw [bucketCounts]
  apply List.map_congr_left
  intro i _
  by_cases h : L = i
  · subst h
    simp [Nat.div_one]
  · have h2 : ¬ i = L := fun hh => h hh.symm
    simp [Nat.div_one, h, h2]

theorem sum_range_ite (L c : Nat) :
    ∀ m : Nat, (((List.range m).map (fun i => if i = L then c else 0)).sum) =
      if L < m then c else 0 := by
  intro m
  induction m with
  | zero => simp
  | succ m ih =>
    rw [List.range_succ, List.map_append, List.sum_append, ih]
    by_cases h : L < m
    · have h2 : L < m + 1 := by omega
      have h3 : ¬ m = L := by omega
      simp [h, h2, h3]
    · by_cases h4 : m = L
      · subst h4
        simp [h, Nat.lt_succ_self]
      · have h5 : ¬ L < m + 1 := by omega
        simp [h, h4, h5]

theorem singleMass_nthD_cdf (L c nb : Nat) (k : Nat) (hk : k < nb) :
    nthD (cdfOf (bucketCounts [(L, c)] 1 nb)) k = if L ≤ k then c else 0 := by
  have hlen : (bucketCounts [(L, c)] 1 nb).length = nb := by
    rw [bucketCounts_single, List.length_map, List.length_range]
  rw [cdfOf_nthD _ k (by rw [hlen]; exact hk), bucketCounts_single,
    ← List.map_take, List.take_range]
  have hmin : min (k + 1) nb = k + 1 := by omega
  rw [hmin, sum_range_ite]
  by_cases h : L ≤ k
  · simp [h, Nat.lt_succ_of_le h]
  · have h2 : ¬ L < k + 1 := by omega
    simp [h, h2]

theorem singleMass_linSearchIdx (L c nb u : Nat) (hL : L < nb) (hu : u < c) :
    linSearchIdx (cdfOf (bucketCounts [(L, c)] 1 nb)) u = L := by
  have hlen : (cdfOf (bucketCounts [(L, c)] 1 nb)).length = nb := by
    rw [cdfOf_length, bucketCounts_single, List.length_map, List.length_range]
  obtain ⟨l1, l2, l3⟩ := linSearchIdx_spec (cdfOf (bucketCounts [(L, c)] 1 nb)) u
  refine firstIdx_unique l1 l2 l3 ?_ ?_ ?_
  · intro k hk
    rw [singleMass_nthD_cdf L c nb k (by omega)]
    have : ¬ L ≤ k := by omega
    simp [this]
  · intro _
    rw [singleMass_nthD_cdf L c nb L hL]
    simp [hu]
  · omega

theorem singleMass_fast_sample (L c nb u : Nat) (hL : L < nb) (hu : u < c) :
    HistogramSampler.sample (bucketCounts [(L, c)] 1 nb) 1 u 0 = L + 1 := by
  rw [histogramSampler_sample_eq_slow, HistogramSamplerSlow.sample,
    singleMass_linSearchIdx L c nb u hL hu]
  omega

/-- Counterexample to C6 as stated: with all histogram mass at length 5
and bucket_size 1, `sample()` does not return the length 5 — the spec's
own sampling rule `(bucket_index + 1) · bucket_size`, with bucket index
`floor(5 / 1) = 5`, returns 6. -/
theorem histogramSampler_single_mass_counterexample :
    HistogramSampler.sample (bucketCounts [(5, 3)] 1 6) 1 0 0 = 6 ∧
    HistogramSampler.sample (bucketCounts [(5, 3)] 1 6) 1 0 0 ≠ 5 := by
  have h := singleMass_fast_sample 5 3 6 0 (by omega) (by omega)
  exact ⟨h, by omega⟩

/-- C6 (amended): for a LengthHistogram whose entire mass is at a single
length L and a HistogramSampler constructed with bucket_size 1, the draw
is deterministic — every uniform draw `u < total` returns the same
value, so the standard deviation over any number of draws is 0 — but
the returned value is L + 1 (the spec's `(bucket_index + 1) ·
bucket_size` with bucket index `floor(L / 1) = L`), not L. -/
theorem histogramSampler_single_mass_deterministic (L c nb u1 u2 : Nat)
    (hL : L < nb) (hu1 : u1 < c) (hu2 : u2 < c) :
    HistogramSampler.sample (bucketCounts [(L, c)] 1 nb) 1 u1 0 = L + 1 ∧
    HistogramSampler.sample (bucketCounts [(L, c)] 1 nb) 1 u1 0 =
      HistogramSampler.sample (bucketCounts [(L, c)] 1 nb) 1 u2 0 := by
  have h1 := singleMass_fast_sample L c nb u1 hL hu1
  have h2 := singleMass_fast_sample L c nb u2 hL hu2
  exact ⟨h1, by rw [h1, h2]⟩

/-- Witness for the amended C6 at a concrete histogram. -/
theorem histogramSampler_single_mass_deterministic_witness :
    5 < 6 ∧ 0 < 3 ∧ 2 < 3 ∧
    (HistogramSampler.sample (bucketCounts [(5, 3)] 1 6) 1 0 0 = 5 + 1 ∧
     HistogramSampler.sample (bucketCounts [(5, 3)] 1 6) 1 0 0 =
       HistogramSampler.sample (bucketCounts [(5, 3)] 1 6) 1 2 0) :=
  ⟨by decide, by decide, by decide,
   histogramSampler_single_mass_deterministic 5 3 6 0 2 (by decide) (by decide) (by decide)⟩

/-- Modelled from the spec: the two-sided empirical p-value of the
driver — with `N` samples, `k_low = |{x ∈ X : x ≤ o}|`,
`k_high = |{x ∈ X : x ≥ o}|`, the p-value is
`2 · min(k_low, k_high) / N`, clipped to `[1/N, 1]`. -/
def getTwoSidedPValue (X : List ℚ) (o : ℚ) : ℚ :=
  max (1 / (X.length : ℚ))
    (min 1 (2 * min ((X.filter (fun x => decide (x ≤ o))).length : ℚ)
      ((X.filter (fun x => decide (o ≤ x))).length : ℚ) / (X.length : ℚ)))

/-- C4: the two-sided empirical p-value over a nonempty sample vector
`X` of size N and observation `o` equals
`2 · min(k_low, k_high) / N` clipped to the interval `[1/N, 1]`; in
particular it is never 0 and never exceeds 1. -/
theorem getTwoSidedPValue_spec (X : List ℚ) (o : ℚ) (h : X ≠ []) :
    getTwoSidedPValue X o =
      max (1 / (X.length : ℚ))
        (min 1 (2 * min ((X.filter (fun x => decide (x ≤ o))).length : ℚ)
          ((X.filter (fun x => decide (o ≤ x))).length : ℚ) / (X.length : ℚ))) ∧
    (1 / (X.length : ℚ)) ≤ getTwoSidedPValue X o ∧
    0 < getTwoSidedPValue X o ∧ getTwoSidedPValue X o ≤ 1 := by
  have hlen : 0 < X.length := List.length_pos.mpr h
  have hN : 0 < (X.length : ℚ) := by exact_mod_cast hlen
  have hlb : (1 / (X.length : ℚ)) ≤ getTwoSidedPValue X o := le_max_left _ _
  refine ⟨rfl, hlb, ?_, ?_⟩
  · have : (0:ℚ) < 1 / (X.length : ℚ) := by positivity
    exact lt_of_lt_of_le this hlb
  · rw [getTwoSidedPValue]
    apply max_le
    · rw [div_le_one hN]
      exact_mod_cast hlen
    · exact min_le_left _ _

/-- Witness for C4 at a concrete sample vector. -/
theorem getTwoSidedPValue_spec_witness :
    ([(0:ℚ), 1, 2] ≠ []) ∧
    (getTwoSidedPValue [(0:ℚ), 1, 2] 1 =
      max (1 / (([(0:ℚ), 1, 2] : List ℚ).length : ℚ))
        (min 1 (2 * min ((([(0:ℚ), 1, 2] : List ℚ).filter (fun x => decide (x ≤ 1))).length : ℚ)
          ((([(0:ℚ), 1, 2] : List ℚ).filter (fun x => decide ((1:ℚ) ≤ x))).length : ℚ) /
            (([(0:ℚ), 1, 2] : List ℚ).length : ℚ))) ∧
    (1 / (([(0:ℚ), 1, 2] : List ℚ).length : ℚ)) ≤ getTwoSidedPValue [(0:ℚ), 1, 2] 1 ∧
    0 < getTwoSidedPValue [(0:ℚ), 1, 2] 1 ∧ getTwoSidedPValue [(0:ℚ), 1, 2] 1 ≤ 1) :=
  ⟨by simp, getTwoSidedPValue_spec [(0:ℚ), 1, 2] 1 (by simp)⟩

/-- Result of an attribute read on a Counter instance: either a stored
count (via `__getattr__`, which falls through to the `_counts`
defaultdict) or an attribute found on the class itself (the `_counts`
slot descriptor or a method), which shadows the count. -/
inductive PyAttr where
  | int (v : Int)
  | classAttr (name : String)
deriving DecidableEq

/-- Names the Counter class in src/gat/Experiment.py defines in its own
body: the `__slots__` entry `_counts` and the methods.  These are only
part of what Python attribute lookup finds on the class before ever
calling `__getattr__`: the full shadowing set also contains `__slots__`
itself, the implicit class attributes (`__doc__`, `__module__`) and
everything inherited from `object`, an inventory that is
interpreter-defined.  `Counter.getattr` therefore takes the shadowing
set as a parameter, constrained to contain at least these names. -/
def counterClassAttrs : List String :=
  ["_counts", "__init__", "__setitem__", "__getitem__", "__getattr__",
   "__setattr__", "__str__", "__iadd__", "iteritems"]

/-- Class-reachable attribute names of Counter beyond the class body in
CPython 2: `__slots__` itself, the implicit class attributes and the
attributes inherited from `object`.  Used only to instantiate the
shadowing-set parameter concretely in the counterexample and the
witness. -/
def counterInheritedAttrs : List String :=
  ["__slots__", "__doc__", "__module__", "__class__", "__delattr__",
   "__format__", "__getattribute__", "__hash__", "__new__", "__reduce__",
   "__reduce_ex__", "__repr__", "__sizeof__", "__subclasshook__"]

/-- Counter from src/gat/Experiment.py: the instance state is the
`_counts` defaultdict(int); every absent key reads as 0. -/
structure Counter where
  counts : String → Int

/-- Counter.__init__: a fresh empty defaultdict(int). -/
def Counter.init : Counter := ⟨fun _ => 0⟩

/-- Counter.__getitem__: `self._counts[key]` (0 when absent). -/
def Counter.getitem (c : Counter) (k : String) : Int := c.counts k

/-- Counter.__setitem__: `self._counts[key] = value`. -/
def Counter.setitem (c : Counter) (k : String) (v : Int) : Counter :=
  ⟨fun m => if m = k then v else c.counts m⟩

/-- Attribute read `c.name` against the set `A` of names Python finds
on the class (slot descriptors, methods, implicit and inherited class
attributes): lookup resolves those first; only when that fails is
`Counter.__getattr__` called, returning `self._counts[name]`. -/
def Counter.getattr (A : List String) (c : Counter) (n : String) : PyAttr :=
  if n ∈ A then PyAttr.classAttr n else PyAttr.int (c.counts n)

/-- Attribute write `c.name = v`: `Counter.__setattr__` intercepts every
attribute write and unconditionally stores into `self._counts[name]`,
shadowed name or not. -/
def Counter.setattr (c : Counter) (n : String) (v : Int) : Counter :=
  Counter.setitem c n v

/-- Counterexample to C8 as stated: the key `iteritems` is not shadowed
by the class's `__slots__` (`_counts` is the only slot), yet attribute
access `c.iteritems` finds the bound method on the class, not the count
0 that item access `c["iteritems"]` returns.  The shadowing set is
instantiated at the CPython 2 inventory. -/
theorem counter_attr_counterexample :
    ("iteritems" ∉ ["_counts"]) ∧
    Counter.getitem Counter.init "iteritems" = 0 ∧
    Counter.getattr (counterClassAttrs ++ counterInheritedAttrs)
      Counter.init "iteritems" ≠ PyAttr.int 0 := by
  refine ⟨by decide, rfl, ?_⟩
  rw [Counter.getattr, if_pos (by decide)]
  intro hcontra
  cases hcontra

/-- C8 (amended): for every key `k` that is not shadowed by any
attribute Python finds on the Counter class — whatever the exact
shadowing set `A` is, provided it contains the names defined in the
class body — an unwritten key reads as 0 through both item access and
attribute access, and item access and attribute access address the same
underlying count: after an attribute write of `v`, item access returns
`v`, and after an item write of `v`, attribute access returns `v`. -/
theorem counter_item_attr_alias (A : List String)
    (hA : ∀ a ∈ counterClassAttrs, a ∈ A) (k : String) (hk : k ∉ A)
    (c : Counter) (v : Int) :
    Counter.getitem Counter.init k = 0 ∧
    Counter.getattr A Counter.init k = PyAttr.int 0 ∧
    Counter.getitem (Counter.setattr c k v) k = v ∧
    Counter.getattr A (Counter.setitem c k v) k = PyAttr.int v := by
  refine ⟨rfl, ?_, ?_, ?_⟩
  · rw [Counter.getattr, if_neg hk]
    rfl
  · show (if k = k then v else c.counts k) = v
    rw [if_pos rfl]
  · rw [Counter.getattr, if_neg hk]
    show PyAttr.int (if k = k then v else c.counts k) = PyAttr.int v
    rw [if_pos rfl]

/-- Witness for the amended C8 at a concrete key, with the shadowing
set instantiated at the CPython 2 inventory. -/
theorem counter_item_attr_alias_witness :
    (∀ a ∈ counterClassAttrs, a ∈ counterClassAttrs ++ counterInheritedAttrs) ∧
    ("input" ∉ counterClassAttrs ++ counterInheritedAttrs) ∧
    (Counter.getitem Counter.init "input" = 0 ∧
     Counter.getattr (counterClassAttrs ++ counterInheritedAttrs)
       Counter.init "input" = PyAttr.int 0 ∧
     Counter.getitem (Counter.setattr Counter.init "input" 7) "input" = 7 ∧
     Counter.getattr (counterClassAttrs ++ counterInheritedAttrs)
       (Counter.setitem Counter.init "input" 7) "input" = PyAttr.int 7) :=
  ⟨by decide, by decide,
   counter_item_attr_alias (counterClassAttrs ++ counterInheritedAttrs)
     (by decide) "input" (by decide) Counter.init 7⟩

/-- Exit status of a spawned process as subprocess.call reports it: a
normal exit yields the exit status, termination by signal `sig` yields
`-sig` (signal numbers are positive). -/
inductive ProcExit where
  | exited (code : Nat)
  | signaled (sig : Nat)
deriving DecidableEq

/-- Return code delivered by `subprocess.call(cmd, shell=True)` for a
process outcome. -/
def callRetcode : ProcExit → Int
  | ProcExit.exited code => (code : Int)
  | ProcExit.signaled sig => -(sig : Int)

/-- run(cmd) from src/gat/Experiment.py: raise OSError when the return
code is negative, otherwise return the return code. -/
def run (p : ProcExit) : Except String Int :=
  if callRetcode p < 0 then
    Except.error ("process was terminated by signal " ++ toString (-(callRetcode p)))
  else Except.ok (callRetcode p)

/-- Predicate: the process was terminated by a signal. -/
def ProcExit.isSignaled : ProcExit → Prop
  | ProcExit.exited _ => False
  | ProcExit.signaled _ => True

/-- C10: `run(cmd)` raises OSError if and only if the spawned process
was terminated by a signal (return code < 0); every process that exits
normally, including with a nonzero exit status, has its exit status
returned without raising. -/
theorem run_raises_iff_signaled (p : ProcExit)
    (hsig : ∀ sig : Nat, p = ProcExit.signaled sig → 0 < sig) :
    ((∃ msg, run p = Except.error msg) ↔ p.isSignaled) ∧
    (∀ code : Nat, p = ProcExit.exited code → run p = Except.ok (code : Int)) := by
  cases p with
  | exited code =>
    have hnn : ¬ callRetcode (ProcExit.exited code) < 0 := by
      show ¬ (code : Int) < 0
      omega
    constructor
    · constructor
      · rintro ⟨msg, hmsg⟩
        rw [run, if_neg hnn] at hmsg
        cases hmsg
      · intro hf
        exact hf.elim
    · intro c hc
      have hcc : code = c := by
        injection hc
      subst hcc
      rw [run, if_neg hnn]
      rfl
  | signaled sig =>
    have hpos : 0 < sig := hsig sig rfl
    have hneg : callRetcode (ProcExit.signaled sig) < 0 := by
      show -(sig : Int) < 0
      omega
    constructor
    · constructor
      · intro _
        trivial
      · intro _
        exact ⟨_, by rw [run, if_pos hneg]⟩
    · intro c hc
      cases hc

/-- Witness for C10 at concrete process outcomes. -/
theorem run_raises_iff_signaled_witness :
    (((∃ msg, run (ProcExit.signaled 9) = Except.error msg) ↔
        (ProcExit.signaled 9).isSignaled) ∧
      (∀ code : Nat, ProcExit.signaled 9 = ProcExit.exited code →
        run (ProcExit.signaled 9) = Except.ok (code : Int))) ∧
    (((∃ msg, run (ProcExit.exited 1) = Except.error msg) ↔
        (ProcExit.exited 1).isSignaled) ∧
      (∀ code : Nat, ProcExit.exited 1 = ProcExit.exited code →
        run (ProcExit.exited 1) = Except.ok (code : Int))) :=
  ⟨run_raises_iff_signaled (ProcExit.signaled 9)
      (fun sig hs => by injection hs with h; omega),
   run_raises_iff_signaled (ProcExit.exited 1)
      (fun sig hs => by cases hs)⟩

/-- Memoize from src/gat/Experiment.py: `self.cache` is keyed by the
call argument tuple only, `self.fn` is the wrapped function, and
`self.instance` is the receiver most recently stored by `__get__`. -/
structure Memoize (ι α β : Type) where
  fn : ι → α → β
  cache : List (α × β)
  inst : Option ι

/-- cachedmethod(function) = Memoize(function): a fresh memoizer with an
empty cache; `self.instance` is not yet set. -/
def cachedmethod {ι α β : Type} (fn : ι → α → β) : Memoize ι α β := ⟨fn, [], none⟩

/-- Memoize.__get__: store the receiving instance and return the
memoizer itself. -/
def Memoize.get {ι α β : Type} (m : Memoize ι α β) (i : ι) : Memoize ι α β :=
  { m with inst := some i }

/-- Dictionary lookup in the cache, keyed by the argument. -/
def lookupCache {α β : Type} [DecidableEq α] : List (α × β) → α → Option β
  | [], _ => none
  | (a, b) :: rest, x => if x = a then some b else lookupCache rest x

/-- Memoize.__call__: on a cache hit return the stored result without
invoking the wrapped function; on a miss invoke
`self.fn(self.instance, *args)` and store the result.  The Bool records
whether the wrapped function was invoked; `none` models the
AttributeError raised when `__get__` never ran. -/
def Memoize.call {ι α β : Type} [DecidableEq α] (m : Memoize ι α β) (a : α) :
    Option (β × Memoize ι α β × Bool) :=
  match lookupCache m.cache a with
  | some b => some (b, m, false)
  | none =>
    match m.inst with
    | none => none
    | some i => some (m.fn i a, { m with cache := (a, m.fn i a) :: m.cache }, true)

/-- Lookup in a cache that a call has just populated finds the stored
result. -/
theorem Memoize.call_caches {ι α β : Type} [DecidableEq α]
    {m : Memoize ι α β} {i : ι} {a : α} {r1 : β} {m1 : Memoize ι α β} {b1 : Bool}
    (h : (Memoize.get m i).call a = some (r1, m1, b1)) :
    lookupCache m1.cache a = some r1 := by
  rw [Memoize.call] at h
  cases hl : lookupCache m.cache a with
  | some b =>
    rw [show lookupCache (m.get i).cache a = some b from hl] at h
    dsimp only at h
    simp only [Option.some.injEq, Prod.mk.injEq] at h
    obtain ⟨hr, hm, _⟩ := h
    subst hr
    subst hm
    exact hl
  | none =>
    rw [show lookupCache (m.get i).cache a = none from hl] at h
    dsimp only [Memoize.get] at h
    simp only [Option.some.injEq, Prod.mk.injEq] at h
    obtain ⟨hr, hm, _⟩ := h
    subst hr
    subst hm
    show (if a = a then some (m.fn i a) else lookupCache m.cache a) = some (m.fn i a)
    rw [if_pos rfl]

/-- A call whose argument is already cached returns the cached result
without invoking the wrapped function, whatever instance `__get__`
installed. -/
theorem Memoize.call_hit {ι α β : Type} [DecidableEq α]
    {m : Memoize ι α β} {a : α} {r : β} (h : lookupCache m.cache a = some r) (i : ι) :
    (Memoize.get m i).call a = some (r, Memoize.get m i, false) := by
  rw [Memoize.call]
  rw [show lookupCache (m.get i).cache a = some r from h]

/-- C9: the Memoize cache behind `cachedmethod` is keyed by the call
arguments only, not by the receiving instance: once any instance `i1`
has called the memoized method with argument `a`, every later call with
`a` — on that instance or on any other instance `i2` of the class —
returns the first stored result without invoking the wrapped function
again. -/
theorem memoize_cache_shared_across_instances {ι α β : Type} [DecidableEq α]
    (m : Memoize ι α β) (i1 i2 : ι) (a : α) (r1 : β) (m1 : Memoize ι α β) (b1 : Bool)
    (h : (Memoize.get m i1).call a = some (r1, m1, b1)) :
    (Memoize.get m1 i2).call a = some (r1, Memoize.get m1 i2, false) :=
  Memoize.call_hit (Memoize.call_caches h) i2

/-- Witness for C9 at a concrete function and instances. -/
theorem memoize_cache_shared_across_instances_witness :
    ((Memoize.get (cachedmethod (fun (i : Nat) (a : Nat) => i + a)) 1).call 2 =
      some (3, Memoize.get ⟨fun i a => i + a, [(2, 3)], some 1⟩ 1, true)) ∧
    ((Memoize.get (Memoize.get ⟨fun (i a : Nat) => i + a, [(2, 3)], some 1⟩ 1) 5).call 2 =
      some (3, Memoize.get (Memoize.get ⟨fun i a => i + a, [(2, 3)], some 1⟩ 1) 5, false)) := by
  have hcall : (Memoize.get (cachedmethod (fun (i : Nat) (a : Nat) => i + a)) 1).call 2 =
      some (3, Memoize.get ⟨fun i a => i + a, [(2, 3)], some 1⟩ 1, true) := by
    rw [Memoize.call]
    rfl
  exact ⟨hcall,
    memoize_cache_shared_across_instances (cachedmethod (fun i a => i + a)) 1 5 2 3
      (Memoize.get ⟨fun i a => i + a, [(2, 3)], some 1⟩ 1) true hcall⟩
